import Mathlib

/-!
Verification of rm_auto_aim: NumberClassifier.

A shallow embedding of `src/armor_detector/src/number_classifier.cpp`
(constructor, `extractNumbers`, `fcClassify`) and the properties proved about it.

Conventions of the embedding.

* Pixel coordinates range over a linearly ordered field `K`; `int` values are `Int`.
* Classifier scores and confidences range over a linearly ordered type `K` with its own
  subtraction, sum, division and product, and the exponential is the field `expf` of
  `Ops`: the arithmetic may be exact (the reals with `Real.exp`) or rounded (a machine
  number type).  Theorems that need exact arithmetic say so by taking `K` to be the
  reals and `expf` to be `Real.exp`.
* OpenCV routines whose result depends on pixel data (perspective warp, crop,
  colour conversion, Otsu threshold, network forward pass, number formatting) are
  fields of `Ops`; everything the source computes itself is defined here.
* A `std::vector<Armor>` is a `List`; an iterator is an index into it.  The
  range-based `for` of `fcClassify` evaluates `begin()` and `end()` once, so the
  loop runs once per element present on entry; dereferencing an index at or beyond
  the current size (an element destroyed by `erase`) is the error
  `FcError.erasedElement`.
-/

namespace rm_auto_aim

/-! ## Data model -/

/-- A `cv::Point2f`. -/
structure Point2f (K : Type) where
  x : K
  y : K
deriving DecidableEq, Repr

namespace Point2f

variable {K : Type} [LinearOrderedField K]

/-- Pointwise `operator+` of `cv::Point_`. -/
def add (p q : Point2f K) : Point2f K := ⟨p.x + q.x, p.y + q.y⟩

/-- Pointwise `operator-` of `cv::Point_`. -/
def sub (p q : Point2f K) : Point2f K := ⟨p.x - q.x, p.y - q.y⟩

/-- Scalar `operator/` of `cv::Point_`. -/
def div (p : Point2f K) (c : K) : Point2f K := ⟨p.x / c, p.y / c⟩

/-- Scalar `operator*` of `cv::Point_`. -/
def mul (p : Point2f K) (c : K) : Point2f K := ⟨p.x * c, p.y * c⟩

end Point2f

/-- The members of `Light` that `number_classifier.cpp` reads (`top`, `bottom`) and
its `length`. -/
structure Light (K : Type) where
  top : Point2f K
  bottom : Point2f K
  length : K
deriving DecidableEq, Repr

/-- Modelled from the spec: the enumeration of `armor_type` (its declaration is not
part of the sources at hand): an armor is LARGE or SMALL. -/
inductive ArmorType where
  | SMALL
  | LARGE
deriving DecidableEq, Repr

/-- Modelled from the spec: the `Armor` record with the members
`number_classifier.cpp` reads and writes (`left_light`, `right_light`,
`armor_type`, `number_img`, `confidence`, `number`, `classfication_result`); the
header at hand declares only the two lights and the center. -/
structure Armor (K Img : Type) where
  left_light : Light K
  right_light : Light K
  armor_type : ArmorType
  number_img : Img
  confidence : K
  number : Char
  classfication_result : String
deriving DecidableEq, Repr

/-- A `cv::Rect` with integer corner and size. -/
structure Rect where
  x : Int
  y : Int
  width : Int
  height : Int
deriving DecidableEq, Repr

/-- The four vertices handed to `cv::getPerspectiveTransform`, in the order of the
array `number_vertices`. -/
structure Quad (K : Type) where
  bottom_left : Point2f K
  top_left : Point2f K
  top_right : Point2f K
  bottom_right : Point2f K
deriving DecidableEq, Repr

/-- The library routines the classifier calls on pixel data.
`warpPerspective src q t w h` stands for `cv::getPerspectiveTransform(q, t)` followed by
`cv::warpPerspective(src, _, _, cv::Size(w, h))`; `forward net img` stands for lines
95-107 of `fcClassify` (clone, divide by 255, `blobFromImage`, `setInput`, `forward`)
and returns the raw class scores in index order. -/
structure Ops (K Frame Img Net : Type) where
  warpPerspective : Frame → Quad K → Quad Int → Int → Int → Img
  crop : Img → Rect → Img
  cvtColorGray : Img → Img
  thresholdOtsu : Img → Img
  forward : Net → Img → List K
  expf : K → K
  formatResult : Char → K → String

/-- The state of a constructed `NumberClassifier`. -/
structure NumberClassifier (K Net : Type) where
  threshold : K
  net_ : Net
  class_names_ : List Char
deriving Repr

/-! ## Constructor -/

/-- One call of `std::getline(stream, line)` on the unread characters of the stream:
`none` when no character can be extracted (the stream is exhausted, or was never
opened), otherwise the line read (delimiter discarded) and the characters left. -/
def getline : List Char → Option (List Char × List Char)
  | [] => none
  | c :: cs =>
    if c = '\n' then some ([], cs)
    else
      match getline cs with
      | none => some ([c], [])
      | some (line, rest) => some (c :: line, rest)

/-- The expression `line[0]` on a `std::string`: the first character, and the
terminating null character when the string is empty. -/
def line0 (line : List Char) : Char := line.headD (Char.ofNat 0)

/-- The loop `while (std::getline(label_file, line)) class_names_.push_back(line[0]);`
run for at most `fuel` iterations. -/
def readLabelsLoop : Nat → List Char → List Char → List Char
  | 0, _, class_names_ => class_names_
  | fuel + 1, stream, class_names_ =>
    match getline stream with
    | none => class_names_
    | some (line, rest) => readLabelsLoop fuel rest (class_names_ ++ [line0 line])

/-- The label loop on a stream; every iteration consumes a character, so
`stream.length` iterations exhaust it. -/
def readLabels (stream : List Char) : List Char :=
  readLabelsLoop (stream.length + 1) stream []

/-- The constructor `NumberClassifier::NumberClassifier(model_path, label_path, thre)`.
`readNetFromONNX` gives `none` when `cv::dnn::readNetFromONNX` throws; `readFile`
gives `none` when the file cannot be opened, in which case the `std::ifstream` is in
a failed state and every `getline` fails. -/
def NumberClassifier.new {K Net : Type} (readNetFromONNX : String → Option Net)
    (readFile : String → Option (List Char))
    (model_path label_path : String) (thre : K) : Option (NumberClassifier K Net) :=
  match readNetFromONNX model_path with
  | none => none
  | some net =>
    let stream := (readFile label_path).getD []
    some { threshold := thre, net_ := net, class_names_ := readLabels stream }

/-! ## extractNumbers -/

section Extract

variable {K : Type} [LinearOrderedField K]

/-- Constant `const float height_factor = 2.0;`. -/
def height_factor : K := 2

/-- Constant `const int warp_height = 28;`. -/
def warp_height : Int := 28

/-- Constant `const float large_warp_width = 50;`, used as `int`. -/
def large_warp_width : Int := 50

/-- Constant `const float small_warp_width = 35;`, used as `int`. -/
def small_warp_width : Int := 35

/-- Constant `const cv::Size roi_size(20, 28);` as (width, height). -/
def roi_size : Int × Int := (20, 28)

/-- The array `number_vertices` of one armor (lines 56-68). -/
def numberVertices (armor : Armor K Img) : Quad K :=
  let left_height_diff := armor.left_light.bottom.sub armor.left_light.top
  let right_height_diff := armor.right_light.bottom.sub armor.right_light.top
  let left_center := (armor.left_light.top.add armor.left_light.bottom).div 2
  let right_center := (armor.right_light.top.add armor.right_light.bottom).div 2
  let top_left := left_center.sub ((left_height_diff.div 2).mul height_factor)
  let top_right := right_center.sub ((right_height_diff.div 2).mul height_factor)
  let bottom_left := left_center.add ((left_height_diff.div 2).mul height_factor)
  let bottom_right := right_center.add ((right_height_diff.div 2).mul height_factor)
  { bottom_left := bottom_left, top_left := top_left,
    top_right := top_right, bottom_right := bottom_right }

/-- The value of `warp_width` (line 69). -/
def warpWidth (t : ArmorType) : Int :=
  if t = ArmorType.LARGE then large_warp_width else small_warp_width

/-- The array `target_vertices` (lines 70-75). -/
def targetVertices (warp_width : Int) : Quad Int :=
  { bottom_left := ⟨0, warp_height - 1⟩, top_left := ⟨0, 0⟩,
    top_right := ⟨warp_width - 1, 0⟩, bottom_right := ⟨warp_width - 1, warp_height - 1⟩ }

/-- The region of interest
`cv::Rect(cv::Point((warp_width - roi_size.width) / 2, 0), roi_size)` (line 82);
`/` is C++ integer division. -/
def roiRect (warp_width : Int) : Rect :=
  { x := (warp_width - roi_size.1).tdiv 2, y := 0, width := roi_size.1, height := roi_size.2 }

/-- The body of the loop of `extractNumbers` for one armor (lines 55-88). -/
def extractNumber (ops : Ops K Frame Img Net) (src : Frame) (armor : Armor K Img) :
    Armor K Img :=
  let number_vertices := numberVertices armor
  let warp_width := warpWidth armor.armor_type
  let target_vertices := targetVertices warp_width
  let number_image :=
    ops.warpPerspective src number_vertices target_vertices warp_width warp_height
  let number_image := ops.crop number_image (roiRect warp_width)
  let number_image := ops.cvtColorGray number_image
  let number_image := ops.thresholdOtsu number_image
  { armor with number_img := number_image }

/-- Function `NumberClassifier::extractNumbers(src, armors)`: the loop visits every armor
once and erases none. -/
def extractNumbers (ops : Ops K Frame Img Net) (src : Frame) (armors : List (Armor K Img)) :
    List (Armor K Img) :=
  armors.map (extractNumber ops src)

end Extract

/-! ## fcClassify -/

section Classify

variable {K : Type}

/-- The ways `fcClassify` can leave defined behaviour. -/
inductive FcError where
  /-- The call `std::max_element` on an empty output: the end iterator is dereferenced. -/
  | emptyOutput
  /-- The lookup `class_names_[label_id]` with `label_id` beyond the label list. -/
  | labelOutOfRange
  /-- The loop reaches a position whose element was destroyed by `erase`. -/
  | erasedElement
deriving DecidableEq, Repr

/-- The value `*std::max_element(first, last)`; `none` on an empty range. -/
def max_element [LinearOrder K] : List K → Option K
  | [] => none
  | x :: xs => some (xs.foldl (fun largest y => if largest < y then y else largest) x)

/-- Lines 110-114: subtract the maximum, exponentiate, divide by the sum; subtraction,
sum and division are those of the value type `K` (exact over the reals, rounded for a
machine number type). -/
def softmax [LinearOrder K] [Sub K] [Div K] [Add K] [Zero K] (expf : K → K)
    (outputs : List K) : Option (List K) :=
  match max_element outputs with
  | none => none
  | some max_prob =>
    let softmax_prob := outputs.map (fun s => expf (s - max_prob))
    let sum := softmax_prob.sum
    some (softmax_prob.map (fun p => p / sum))

/-- The scan of `cv::minMaxLoc` for the maximum over a single row: the running maximum
is replaced only by a strictly greater value, so the first maximal position wins.
Arguments: position of the next element, running maximum and its position. -/
def maxLocScan [LinearOrder K] : List K → Nat → K → Nat → K × Nat
  | [], _, maxVal, maxIdx => (maxVal, maxIdx)
  | v :: vs, i, maxVal, maxIdx =>
    if maxVal < v then maxLocScan vs (i + 1) v i else maxLocScan vs (i + 1) maxVal maxIdx

/-- The call `minMaxLoc(row, nullptr, &confidence, nullptr, &class_id_point)`: maximum
value and the column of its first occurrence. -/
def minMaxLoc [LinearOrder K] : List K → Option (K × Nat)
  | [] => none
  | v :: vs => some (maxLocScan vs 1 v 0)

/-- Lines 95-127: score one armor and write `confidence`, `number` and
`classfication_result`. -/
def classifyArmor [LinearOrder K] [Sub K] [Div K] [Add K] [Zero K] [Mul K] [OfNat K 100]
    (ops : Ops K Frame Img Net) (self : NumberClassifier K Net)
    (armor : Armor K Img) : Except FcError (Armor K Img) :=
  let outputs := ops.forward self.net_ armor.number_img
  match softmax ops.expf outputs with
  | none => .error .emptyOutput
  | some softmax_prob =>
    match minMaxLoc softmax_prob with
    | none => .error .emptyOutput
    | some (confidence, label_id) =>
      match self.class_names_[label_id]? with
      | none => .error .labelOutOfRange
      | some number =>
        .ok { armor with
              confidence := confidence
              number := number
              classfication_result := ops.formatResult number (confidence * 100) }

/-- Lines 129-133: `armors.erase(std::remove_if(..., confidence < threshold), end)`;
the armors kept stay in order. -/
def eraseBelow [LinearOrder K] (threshold : K) (armors : List (Armor K Img)) :
    List (Armor K Img) :=
  armors.filter (fun armor => ¬ (armor.confidence < threshold))

/-- The range-based `for` of `fcClassify` with `remaining` iterations left and the
iterator at position `i`: score the element at `i` in place, erase every armor whose
`confidence` is below the threshold, advance. -/
def fcLoop [LinearOrder K] [Sub K] [Div K] [Add K] [Zero K] [Mul K] [OfNat K 100]
    (ops : Ops K Frame Img Net) (self : NumberClassifier K Net) :
    Nat → Nat → List (Armor K Img) → Except FcError (List (Armor K Img))
  | 0, _, armors => .ok armors
  | remaining + 1, i, armors =>
    match armors[i]? with
    | none => .error .erasedElement
    | some armor =>
      match classifyArmor ops self armor with
      | .error e => .error e
      | .ok scored => fcLoop ops self remaining (i + 1) (eraseBelow self.threshold (armors.set i scored))

/-- Function `NumberClassifier::fcClassify(armors)`; the loop bounds are those of the vector
on entry. -/
def fcClassify [LinearOrder K] [Sub K] [Div K] [Add K] [Zero K] [Mul K] [OfNat K 100]
    (ops : Ops K Frame Img Net) (self : NumberClassifier K Net)
    (armors : List (Armor K Img)) : Except FcError (List (Armor K Img)) :=
  fcLoop ops self armors.length 0 armors

end Classify

/-! ## A concrete instance

Images are recorded symbolically, as the chain of library calls that produced them,
so that the definitions above can be evaluated on concrete armors. -/

/-- A symbolic image: the empty `cv::Mat`, or the result of a library call. -/
inductive Patch (K : Type) where
  | blank
  | warped (number_vertices : Quad K) (width height : Int)
  | roi (img : Patch K) (rect : Rect)
  | gray (img : Patch K)
  | otsu (img : Patch K)
deriving DecidableEq, Repr

/-- Library routines over symbolic images; the exponential and the network are
arguments. -/
def demoOps (K : Type) (expf : K → K) (forward : Patch K → List K) :
    Ops K Unit (Patch K) Unit :=
  { warpPerspective := fun _ q _ w h => Patch.warped q w h
    crop := Patch.roi
    cvtColorGray := Patch.gray
    thresholdOtsu := Patch.otsu
    forward := fun _ img => forward img
    expf := expf
    formatResult := fun number _ => String.singleton number }

/-- An upright light at column `x` between rows `top` and `bottom`. -/
def demoLight (K : Type) [LinearOrderedField K] (x top bottom : K) : Light K :=
  { top := ⟨x, top⟩, bottom := ⟨x, bottom⟩, length := bottom - top }

/-- An armor as the matcher hands it over: two upright lights 30 columns apart, no
number image yet, and `confidence` holding the given value. -/
def demoArmor (K : Type) [LinearOrderedField K] (t : ArmorType) (confidence : K) :
    Armor K (Patch K) :=
  { left_light := demoLight K 0 10 20
    right_light := demoLight K 30 10 20
    armor_type := t
    number_img := Patch.blank
    confidence := confidence
    number := 'x'
    classfication_result := String.singleton 'x' }

/-- A classifier state with the given threshold and five labels. -/
def demoClassifier (K : Type) (threshold : K) : NumberClassifier K Unit :=
  { threshold := threshold, net_ := (), class_names_ := ['1', '2', '3', '4', '5'] }

/-- A network over symbolic images with five classes: every class scores 0, except
that for the patch of a SMALL armor (warped to width 35) class 3 scores `high`. -/
def demoForward (K : Type) [LinearOrderedField K] (high : K) : Patch K → List K
  | Patch.otsu (Patch.gray (Patch.roi (Patch.warped _ width _) _)) =>
    if width = 35 then [0, 0, 0, high, 0] else [0, 0, 0, 0, 0]
  | _ => [0, 0, 0, 0, 0]

/-- An armor whose lights have collapsed to points: `top` and `bottom` coincide for
both lights, so the number quadrilateral has no area. -/
def demoDegenerateArmor (K : Type) [LinearOrderedField K] : Armor K (Patch K) :=
  { left_light := demoLight K 0 10 10
    right_light := demoLight K 30 10 10
    armor_type := ArmorType.SMALL
    number_img := Patch.blank
    confidence := 0
    number := 'x'
    classfication_result := String.singleton 'x' }

/-- The lines of a text, as the label resource is described (one label per line): the
runs of characters between line breaks, where a line break that ends the text does not
begin a further line. -/
def textLines (text : List Char) : List (List Char) :=
  if text = [] ∨ text.getLast? = some '\n' then (text.splitOn '\n').dropLast
  else text.splitOn '\n'

/-- Rounding to the nearest multiple of 2^-24 (halves upward): what rounding to a binary
number with a 24-bit significand does to a value between 1/2 and 1. -/
def roundTo24 {K : Type} [LinearOrderedField K] [FloorRing K] (x : K) : K :=
  (⌊x * 2 ^ 24 + 1 / 2⌋ : K) / 2 ^ 24

/-! ## Auxiliary facts about the loop of fcClassify -/

section LoopLemmas

variable {K Frame Img Net : Type} [LinearOrder K]

/-- Writing back the element already stored at a position leaves a list unchanged. -/
theorem set_getElem_same {α : Type} (l : List α) (i : Nat) (h : i < l.length) :
    l.set i l[i] = l := by
  apply List.ext_getElem?
  intro j
  rw [List.getElem?_set]
  by_cases hij : i = j
  · subst hij
    simp [h]
  · simp [hij]

theorem eraseBelow_length_le (threshold : K) (armors : List (Armor K Img)) :
    (eraseBelow threshold armors).length ≤ armors.length := by
  unfold eraseBelow
  exact List.length_filter_le _ _

theorem eraseBelow_mem {threshold : K} {armors : List (Armor K Img)} {a : Armor K Img} :
    a ∈ eraseBelow threshold armors ↔ a ∈ armors ∧ ¬ a.confidence < threshold := by
  simp [eraseBelow, List.mem_filter]

theorem eraseBelow_eq_self {threshold : K} {armors : List (Armor K Img)}
    (h : ∀ a ∈ armors, ¬ a.confidence < threshold) : eraseBelow threshold armors = armors := by
  unfold eraseBelow
  rw [List.filter_eq_self]
  intro a ha
  simpa using h a ha

theorem eraseBelow_eq_self_of_length {threshold : K} {armors : List (Armor K Img)}
    (h : armors.length ≤ (eraseBelow threshold armors).length) :
    eraseBelow threshold armors = armors := by
  have hlen : (eraseBelow threshold armors).length = armors.length :=
    le_antisymm (eraseBelow_length_le _ _) h
  unfold eraseBelow at hlen ⊢
  rw [List.filter_eq_self]
  exact List.filter_length_eq_length.mp hlen

variable [Sub K] [Div K] [Add K] [Zero K] [Mul K] [OfNat K 100]

/-- What a successful `classifyArmor` computed. -/
theorem classifyArmor_ok_iff {ops : Ops K Frame Img Net} {self : NumberClassifier K Net}
    {armor scored : Armor K Img} :
    classifyArmor ops self armor = .ok scored ↔
      ∃ softmax_prob confidence label_id number,
        softmax ops.expf (ops.forward self.net_ armor.number_img) = some softmax_prob ∧
        minMaxLoc softmax_prob = some (confidence, label_id) ∧
        self.class_names_[label_id]? = some number ∧
        scored = { armor with confidence := confidence, number := number,
                              classfication_result := ops.formatResult number (confidence * 100) } := by
  unfold classifyArmor
  dsimp only
  constructor
  · intro h
    split at h
    · exact absurd h (by simp)
    · rename_i sp hsp
      split at h
      · exact absurd h (by simp)
      · rename_i c l hml
        split at h
        · exact absurd h (by simp)
        · rename_i n hn
          simp only [Except.ok.injEq] at h
          exact ⟨sp, c, l, n, hsp, hml, hn, h.symm⟩
  · rintro ⟨sp, c, l, n, hsp, hml, hn, rfl⟩
    simp only [hsp, hml, hn]

/-- Scoring an armor that already carries its own score changes nothing. -/
theorem classifyArmor_idem {ops : Ops K Frame Img Net} {self : NumberClassifier K Net}
    {armor scored : Armor K Img} (h : classifyArmor ops self armor = .ok scored) :
    classifyArmor ops self scored = .ok scored := by
  obtain ⟨sp, c, l, n, hsp, hml, hn, rfl⟩ := classifyArmor_ok_iff.mp h
  exact classifyArmor_ok_iff.mpr ⟨sp, c, l, n, hsp, hml, hn, rfl⟩

/-- A loop that finishes had, at every iteration, a live element under the iterator:
the vector was at least as long as the position reached at the end. -/
theorem fcLoop_ok_length {ops : Ops K Frame Img Net} {self : NumberClassifier K Net} :
    ∀ (remaining i : Nat) (armors out : List (Armor K Img)),
      fcLoop ops self (remaining + 1) i armors = .ok out → i + remaining + 1 ≤ armors.length := by
  intro remaining
  induction remaining with
  | zero =>
    intro i armors out h
    unfold fcLoop at h
    split at h
    · exact absurd h (by simp)
    · rename_i a ha
      have := (List.getElem?_eq_some.mp ha).1
      omega
  | succ k ih =>
    intro i armors out h
    unfold fcLoop at h
    split at h
    · exact absurd h (by simp)
    · rename_i a ha
      split at h
      · exact absurd h (by simp)
      · rename_i s hs
        have h1 := ih (i + 1) _ out h
        have h2 := eraseBelow_length_le self.threshold (armors.set i s)
        rw [List.length_set] at h2
        omega

/-- On a vector whose armors all carry their own score and pass the threshold, every
iteration of the loop leaves the vector as it is. -/
theorem fcLoop_fixed {ops : Ops K Frame Img Net} {self : NumberClassifier K Net}
    {armors : List (Armor K Img)}
    (h : ∀ s ∈ armors, classifyArmor ops self s = .ok s ∧ ¬ s.confidence < self.threshold) :
    ∀ (remaining i : Nat), i + remaining ≤ armors.length →
      fcLoop ops self remaining i armors = .ok armors := by
  intro remaining
  induction remaining with
  | zero => intro i _; rfl
  | succ k ih =>
    intro i hi
    have hlt : i < armors.length := by omega
    have hget : armors[i]? = some armors[i] := List.getElem?_eq_getElem hlt
    have hmem : armors[i] ∈ armors := List.getElem_mem hlt
    unfold fcLoop
    simp only [hget, (h _ hmem).1]
    rw [set_getElem_same _ _ hlt, eraseBelow_eq_self (fun a ha => (h a ha).2)]
    exact ih (i + 1) (by omega)

/-- Invariant of a loop that finishes: armors before the iterator are scored (`Q`) and
pass the threshold, armors from the iterator on are as on entry (`R`); then every armor
of the result is scored and passes the threshold. -/
theorem fcLoop_ok_invariant (ops : Ops K Frame Img Net) (self : NumberClassifier K Net)
    (Q R : Armor K Img → Prop)
    (hstep : ∀ a s, R a → classifyArmor ops self a = .ok s → Q s) :
    ∀ (remaining i : Nat) (armors out : List (Armor K Img)),
      armors.length ≤ i + remaining →
      (∀ j a, armors[j]? = some a →
        (j < i → Q a ∧ ¬ a.confidence < self.threshold) ∧ (i ≤ j → R a)) →
      fcLoop ops self remaining i armors = .ok out →
      ∀ s ∈ out, Q s ∧ ¬ s.confidence < self.threshold := by
  intro remaining
  induction remaining with
  | zero =>
    intro i armors out hlen hinv h s hs
    unfold fcLoop at h
    simp only [Except.ok.injEq] at h
    subst h
    obtain ⟨j, hj⟩ := List.mem_iff_getElem?.mp hs
    have hjlt := (List.getElem?_eq_some.mp hj).1
    exact (hinv j s hj).1 (by omega)
  | succ k ih =>
    intro i armors out hlen hinv h
    unfold fcLoop at h
    split at h
    · exact absurd h (by simp)
    · rename_i a ha
      split at h
      · exact absurd h (by simp)
      · rename_i sc hsc
        have hQ : Q sc := hstep a sc ((hinv i a ha).2 le_rfl) hsc
        have hi : i < armors.length := (List.getElem?_eq_some.mp ha).1
        -- membership in the vector after the write at position `i`
        have hset : ∀ j b, (armors.set i sc)[j]? = some b →
            (j = i ∧ b = sc) ∨ (j ≠ i ∧ armors[j]? = some b) := by
          intro j b hb
          rw [List.getElem?_set] at hb
          by_cases hij : i = j
          · subst hij
            simp only [hi, if_true] at hb
            exact Or.inl ⟨rfl, (Option.some.inj hb).symm⟩
          · simp only [hij, if_false] at hb
            exact Or.inr ⟨fun e => hij e.symm, hb⟩
        cases k with
        | zero =>
          unfold fcLoop at h
          simp only [Except.ok.injEq] at h
          subst h
          intro s hs
          obtain ⟨hs1, hs2⟩ := eraseBelow_mem.mp hs
          refine ⟨?_, hs2⟩
          obtain ⟨j, hj⟩ := List.mem_iff_getElem?.mp hs1
          rcases hset j s hj with ⟨_, rfl⟩ | ⟨hne, hj2⟩
          · exact hQ
          · have hjlt := (List.getElem?_eq_some.mp hj2).1
            exact ((hinv j s hj2).1 (by omega)).1
        | succ k2 =>
          have hl := fcLoop_ok_length k2 (i + 1) _ out h
          have hsame : eraseBelow self.threshold (armors.set i sc) = armors.set i sc := by
            apply eraseBelow_eq_self_of_length
            rw [List.length_set]
            omega
          have hpass : ∀ b ∈ armors.set i sc, ¬ b.confidence < self.threshold := by
            intro b hb
            rw [← hsame] at hb
            exact (eraseBelow_mem.mp hb).2
          rw [hsame] at h
          refine ih (i + 1) (armors.set i sc) out (by rw [List.length_set]; omega) ?_ h
          intro j b hb
          have hbmem : b ∈ armors.set i sc := List.mem_iff_getElem?.mpr ⟨j, hb⟩
          rcases hset j b hb with ⟨rfl, rfl⟩ | ⟨hne, hj2⟩
          · exact ⟨fun _ => ⟨hQ, hpass _ hbmem⟩, fun hle => absurd hle (by omega)⟩
          · refine ⟨fun hlt => ⟨((hinv j b hj2).1 (by omega)).1, hpass _ hbmem⟩, fun hle => ?_⟩
            exact (hinv j b hj2).2 (by omega)

/-- The run of `fcClassify` on a batch of one armor: one iteration, then the loop ends. -/
theorem fcClassify_singleton {ops : Ops K Frame Img Net} {self : NumberClassifier K Net}
    {armor scored : Armor K Img} (h : classifyArmor ops self armor = .ok scored) :
    fcClassify ops self [armor] =
      .ok (if scored.confidence < self.threshold then [] else [scored]) := by
  simp only [fcClassify, fcLoop, List.length_singleton, List.getElem?_cons_zero, h,
    List.set_cons_zero, eraseBelow, List.filter_cons, List.filter_nil, decide_not]
  by_cases hc : scored.confidence < self.threshold <;> simp [hc]

end LoopLemmas

section ExtractLemmas

variable {K Frame Img Net : Type} [LinearOrderedField K]

/-- Running `extractNumber` twice gives what running it once gives. -/
theorem extractNumber_idem (ops : Ops K Frame Img Net) (src : Frame) (armor : Armor K Img) :
    extractNumber ops src (extractNumber ops src armor) = extractNumber ops src armor := rfl

/-- A successful `classifyArmor` keeps an armor a fixed point of `extractNumber`. -/
theorem extractNumber_fixed_of_classify {ops : Ops K Frame Img Net}
    {self : NumberClassifier K Net} {src : Frame} {armor scored : Armor K Img}
    (hfix : extractNumber ops src armor = armor)
    (h : classifyArmor ops self armor = .ok scored) :
    extractNumber ops src scored = scored := by
  obtain ⟨sp, c, l, n, -, -, -, rfl⟩ := classifyArmor_ok_iff.mp h
  have himg := congrArg Armor.number_img hfix
  simp only [extractNumber, numberVertices] at himg ⊢
  rw [himg]

end ExtractLemmas

/-! ## Auxiliary facts about softmax and minMaxLoc -/

section SoftmaxLemmas

variable {K : Type} [LinearOrder K]

/-- The running maximum of the `max_element` scan is the start value or an element
scanned, and bounds both. -/
theorem max_scan_spec (ys : List K) : ∀ (a : K),
    (ys.foldl (fun largest y => if largest < y then y else largest) a = a ∨
      ys.foldl (fun largest y => if largest < y then y else largest) a ∈ ys) ∧
    a ≤ ys.foldl (fun largest y => if largest < y then y else largest) a ∧
    ∀ y ∈ ys, y ≤ ys.foldl (fun largest y => if largest < y then y else largest) a := by
  induction ys with
  | nil => intro a; simp
  | cons y ys ih =>
    intro a
    simp only [List.foldl_cons, List.mem_cons, forall_eq_or_imp]
    by_cases h : a < y
    · simp only [h, if_true]
      obtain ⟨h1, h2, h3⟩ := ih y
      refine ⟨?_, le_trans (le_of_lt h) h2, h2, h3⟩
      rcases h1 with h1 | h1
      · exact Or.inr (Or.inl h1)
      · exact Or.inr (Or.inr h1)
    · simp only [h, if_false]
      obtain ⟨h1, h2, h3⟩ := ih a
      refine ⟨?_, h2, le_trans (not_lt.mp h) h2, h3⟩
      rcases h1 with h1 | h1
      · exact Or.inl h1
      · exact Or.inr (Or.inr h1)

/-- The value of `max_element` is an element of the range and bounds every element. -/
theorem max_element_spec {xs : List K} {m : K} (h : max_element xs = some m) :
    m ∈ xs ∧ ∀ x ∈ xs, x ≤ m := by
  cases xs with
  | nil => simp [max_element] at h
  | cons x xs =>
    simp only [max_element, Option.some.injEq] at h
    obtain ⟨h1, h2, h3⟩ := max_scan_spec xs x
    rw [h] at h1 h2 h3
    refine ⟨?_, ?_⟩
    · rcases h1 with h1 | h1
      · simp [h1]
      · exact List.mem_cons_of_mem _ h1
    · intro y hy
      rcases List.mem_cons.mp hy with rfl | hy
      · exact h2
      · exact h3 y hy

theorem max_element_ne_nil {xs : List K} (h : xs ≠ []) : ∃ m, max_element xs = some m := by
  cases xs with
  | nil => exact absurd rfl h
  | cons x xs => exact ⟨_, rfl⟩

/-- The scan of `minMaxLoc` over the tail `l.drop i` of a row `l`, started from a maximum
`maxVal` of the first `i` entries found first at `maxIdx`, ends with the maximum of the
row and the first position holding it. -/
theorem maxLocScan_spec (l : List K) : ∀ (vs : List K) (i : Nat) (maxVal : K) (maxIdx : Nat),
    l.drop i = vs → l[maxIdx]? = some maxVal →
    (∀ (j : Nat) (x : K), j < i → l[j]? = some x → x ≤ maxVal) →
    (∀ (j : Nat) (x : K), j < maxIdx → l[j]? = some x → x < maxVal) →
    l[(maxLocScan vs i maxVal maxIdx).2]? = some (maxLocScan vs i maxVal maxIdx).1 ∧
    (∀ (j : Nat) (x : K), l[j]? = some x → x ≤ (maxLocScan vs i maxVal maxIdx).1) ∧
    (∀ (j : Nat) (x : K), j < (maxLocScan vs i maxVal maxIdx).2 → l[j]? = some x →
      x < (maxLocScan vs i maxVal maxIdx).1) := by
  intro vs
  induction vs with
  | nil =>
    intro i maxVal maxIdx hdrop hget hle hlt
    simp only [maxLocScan]
    refine ⟨hget, ?_, hlt⟩
    intro j x hj
    have hjlt := (List.getElem?_eq_some.mp hj).1
    have : l.length ≤ i := List.drop_eq_nil_iff.mp hdrop
    exact hle j x (by omega) hj
  | cons v vs ih =>
    intro i maxVal maxIdx hdrop hget hle hlt
    have hi : i < l.length := by
      by_contra hcon
      rw [List.drop_eq_nil_of_le (by omega)] at hdrop
      exact absurd hdrop (by simp)
    rw [List.drop_eq_getElem_cons hi] at hdrop
    have hv : l[i]? = some v := by
      rw [List.getElem?_eq_getElem hi]
      exact congrArg some (List.cons.inj hdrop).1
    have hdrop2 : l.drop (i + 1) = vs := (List.cons.inj hdrop).2
    simp only [maxLocScan]
    by_cases hc : maxVal < v
    · simp only [hc, if_true]
      refine ih (i + 1) v i hdrop2 hv ?_ ?_
      · intro j x hj hx
        rcases Nat.lt_succ_iff_lt_or_eq.mp hj with hj | rfl
        · exact le_of_lt (lt_of_le_of_lt (hle j x hj hx) hc)
        · rw [hv] at hx
          exact le_of_eq (Option.some.inj hx).symm
      · intro j x hj hx
        exact lt_of_le_of_lt (hle j x hj hx) hc
    · simp only [hc, if_false]
      refine ih (i + 1) maxVal maxIdx hdrop2 hget ?_ hlt
      intro j x hj hx
      rcases Nat.lt_succ_iff_lt_or_eq.mp hj with hj | rfl
      · exact hle j x hj hx
      · rw [hv] at hx
        rw [← Option.some.inj hx]
        exact not_lt.mp hc

/-- The result of `minMaxLoc` on a row: the maximum value, found at the first position
that holds it. -/
theorem minMaxLoc_spec {l : List K} {c : K} {k : Nat} (h : minMaxLoc l = some (c, k)) :
    l[k]? = some c ∧ (∀ (j : Nat) (x : K), l[j]? = some x → x ≤ c) ∧
      (∀ (j : Nat) (x : K), j < k → l[j]? = some x → x < c) := by
  cases l with
  | nil => simp [minMaxLoc] at h
  | cons v vs =>
    simp only [minMaxLoc, Option.some.injEq] at h
    have hs := maxLocScan_spec (v :: vs) vs 1 v 0 rfl (by simp)
      (by
        intro j x hj hx
        have : j = 0 := by omega
        subst this
        simp only [List.getElem?_cons_zero, Option.some.injEq] at hx
        exact le_of_eq hx.symm)
      (by intro j x hj; omega)
    rw [h] at hs
    exact hs

theorem minMaxLoc_ne_nil {l : List K} (h : l ≠ []) : ∃ c k, minMaxLoc l = some (c, k) := by
  cases l with
  | nil => exact absurd rfl h
  | cons v vs => exact ⟨_, _, rfl⟩

/-- The softmax vector has one entry per score. -/
theorem softmax_length [Sub K] [Div K] [Add K] [Zero K] {expf : K → K} {scores probs : List K}
    (h : softmax expf scores = some probs) : probs.length = scores.length := by
  unfold softmax at h
  split at h
  · exact absurd h (by simp)
  · simp only [Option.some.injEq] at h
    subst h
    simp

end SoftmaxLemmas
section SoftmaxReal

theorem sum_map_div_const {K : Type} [LinearOrderedField K] (l : List K) (c : K) : (l.map (fun p => p / c)).sum = l.sum / c := by
  induction l with
  | nil => simp
  | cons a l ih => simp only [List.map_cons, List.sum_cons, ih, add_div]

theorem sum_nonneg_of_forall {K : Type} [LinearOrderedField K] {l : List K} (h : ∀ x ∈ l, 0 ≤ x) : 0 ≤ l.sum := by
  induction l with
  | nil => simp
  | cons a l ih =>
    rw [List.sum_cons]
    exact add_nonneg (h a (List.mem_cons_self _ _))
      (ih (fun x hx => h x (List.mem_cons_of_mem _ hx)))

theorem le_sum_of_mem {K : Type} [LinearOrderedField K] {l : List K} (h : ∀ x ∈ l, 0 ≤ x) {a : K} (ha : a ∈ l) : a ≤ l.sum := by
  induction l with
  | nil => simp at ha
  | cons b l ih =>
    rw [List.sum_cons]
    have hl : ∀ x ∈ l, 0 ≤ x := fun x hx => h x (List.mem_cons_of_mem _ hx)
    rcases List.mem_cons.mp ha with rfl | ha
    · exact le_add_of_nonneg_right (sum_nonneg_of_forall hl)
    · exact le_trans (ih hl ha) (le_add_of_nonneg_left (h b (List.mem_cons_self _ _)))


/-- Over the reals the softmax of a non-empty score vector is defined; its denominator is
at least 1 because the maximum score contributes `exp 0`. -/
theorem softmax_real_spec {scores : List ℝ} (hne : scores ≠ []) :
    ∃ m, m ∈ scores ∧ (∀ s ∈ scores, s ≤ m) ∧
      softmax Real.exp scores = some (scores.map (fun s =>
        Real.exp (s - m) / (scores.map (fun t => Real.exp (t - m))).sum)) ∧
      1 ≤ (scores.map (fun t => Real.exp (t - m))).sum := by
  obtain ⟨m, hm⟩ := max_element_ne_nil hne
  obtain ⟨hmem, hmax⟩ := max_element_spec hm
  refine ⟨m, hmem, hmax, ?_, ?_⟩
  · simp only [softmax, hm, List.map_map]
    rfl
  · have h1 : Real.exp (m - m) ∈ scores.map (fun t => Real.exp (t - m)) :=
      List.mem_map.mpr ⟨m, hmem, rfl⟩
    have h2 : ∀ x ∈ scores.map (fun t => Real.exp (t - m)), (0 : ℝ) ≤ x := by
      intro x hx
      obtain ⟨t, -, rfl⟩ := List.mem_map.mp hx
      exact (Real.exp_pos _).le
    have h3 := le_sum_of_mem h2 h1
    simpa using h3

/-- Entries of the softmax vector lie in [0, 1] and add up to 1. -/
theorem softmax_real_bounds {scores probs : List ℝ} (h : softmax Real.exp scores = some probs) :
    (∀ p ∈ probs, 0 ≤ p ∧ p ≤ 1) ∧ probs.sum = 1 := by
  have hne : scores ≠ [] := by
    rintro rfl
    simp [softmax, max_element] at h
  obtain ⟨m, -, -, hs, hsum⟩ := softmax_real_spec hne
  rw [hs] at h
  have hprobs := (Option.some.inj h).symm
  subst hprobs
  have hpos : (0 : ℝ) < (scores.map (fun t => Real.exp (t - m))).sum := lt_of_lt_of_le one_pos hsum
  have h2 : ∀ x ∈ scores.map (fun t => Real.exp (t - m)), (0 : ℝ) ≤ x := by
    intro x hx
    obtain ⟨t, -, rfl⟩ := List.mem_map.mp hx
    exact (Real.exp_pos _).le
  refine ⟨?_, ?_⟩
  · intro p hp
    obtain ⟨s, hs, rfl⟩ := List.mem_map.mp hp
    refine ⟨div_nonneg (Real.exp_pos _).le hpos.le, ?_⟩
    rw [div_le_one hpos]
    exact le_sum_of_mem h2 (List.mem_map.mpr ⟨s, hs, rfl⟩)
  · have := sum_map_div_const (scores.map (fun t => Real.exp (t - m)))
      (scores.map (fun t => Real.exp (t - m))).sum
    rw [List.map_map] at this
    rw [show (fun s => Real.exp (s - m) / (scores.map (fun t => Real.exp (t - m))).sum) =
      ((fun p => p / (scores.map (fun t => Real.exp (t - m))).sum) ∘ fun t => Real.exp (t - m)) from rfl,
      this]
    exact div_self (ne_of_gt hpos)

end SoftmaxReal

/-! ## fcClassify: softmax, confidence and label -/

section Softmax

/-- C3. For a non-empty vector of raw class scores, `fcClassify` computes the vector
`exp (s - m) / sum of exp (t - m)` with `m` the maximum score; every entry lies in
[0, 1], the entries add up to 1, the maximum entry exists and lies in [0, 1], and so does
the confidence `classifyArmor` stores on an armor with these scores (over the reals). -/
theorem softmax_is_probability_vector (scores : List ℝ) (hne : scores ≠ []) :
    ∃ m probs, m ∈ scores ∧ (∀ s ∈ scores, s ≤ m) ∧
      softmax Real.exp scores = some probs ∧
      probs = scores.map (fun s =>
        Real.exp (s - m) / (scores.map (fun t => Real.exp (t - m))).sum) ∧
      (∀ p ∈ probs, 0 ≤ p ∧ p ≤ 1) ∧ probs.sum = 1 ∧
      (∃ c k, minMaxLoc probs = some (c, k) ∧ 0 ≤ c ∧ c ≤ 1) ∧
      (∀ (Frame Img Net : Type) (ops : Ops ℝ Frame Img Net) (self : NumberClassifier ℝ Net)
        (armor scored : Armor ℝ Img),
        ops.expf = Real.exp → ops.forward self.net_ armor.number_img = scores →
        classifyArmor ops self armor = .ok scored →
        0 ≤ scored.confidence ∧ scored.confidence ≤ 1) := by
  obtain ⟨m, hmem, hmax, hs, -⟩ := softmax_real_spec hne
  obtain ⟨hb, hsum⟩ := softmax_real_bounds hs
  have hconf : ∀ c k, minMaxLoc (scores.map (fun s =>
      Real.exp (s - m) / (scores.map (fun t => Real.exp (t - m))).sum)) = some (c, k) →
      0 ≤ c ∧ c ≤ 1 := by
    intro c k hck
    exact hb c (List.mem_iff_getElem?.mpr ⟨k, (minMaxLoc_spec hck).1⟩)
  refine ⟨m, _, hmem, hmax, hs, rfl, hb, hsum, ?_, ?_⟩
  · obtain ⟨c, k, hck⟩ := minMaxLoc_ne_nil
      (l := scores.map (fun s => Real.exp (s - m) / (scores.map (fun t => Real.exp (t - m))).sum))
      (by simpa using hne)
    exact ⟨c, k, hck, hconf c k hck⟩
  · intro Frame Img Net ops self armor scored hexp hfw hcl
    obtain ⟨sp, c, l, n, hsp, hml, -, rfl⟩ := classifyArmor_ok_iff.mp hcl
    rw [hexp, hfw, hs] at hsp
    have := Option.some.inj hsp
    subst this
    exact hconf c l hml

/-- Instance of C3 on the score vector (0, 0). -/
theorem softmax_is_probability_vector_witness :
    ∃ probs, softmax Real.exp [0, 0] = some probs ∧
      (∀ p ∈ probs, 0 ≤ p ∧ p ≤ 1) ∧ probs.sum = 1 := by
  obtain ⟨m, probs, -, -, hs, -, hb, hsum, -, -⟩ :=
    softmax_is_probability_vector [0, 0] (by simp)
  exact ⟨probs, hs, hb, hsum⟩


end Softmax

section Argmax

/-- The class `minMaxLoc` picks from the softmax vector: its score is the maximum raw
score, it is the first class with that score, and its probability is `exp 0` over the
denominator. -/
theorem softmax_argmax_spec {scores : List ℝ} (hne : scores ≠ []) :
    ∃ (k : Nat) (m : ℝ),
      scores[k]? = some m ∧
      (∀ (j : Nat) (x : ℝ), scores[j]? = some x → x ≤ m) ∧
      (∀ (j : Nat) (x : ℝ), j < k → scores[j]? = some x → x < m) ∧
      0 < (scores.map (fun t => Real.exp (t - m))).sum ∧
      ∃ probs, softmax Real.exp scores = some probs ∧
        minMaxLoc probs =
          some (Real.exp (m - m) / (scores.map (fun t => Real.exp (t - m))).sum, k) := by
  obtain ⟨m, hmem, hmax, hs, hsum⟩ := softmax_real_spec hne
  have hpos : (0 : ℝ) < (scores.map (fun t => Real.exp (t - m))).sum := lt_of_lt_of_le one_pos hsum
  obtain ⟨c, k, hck⟩ := minMaxLoc_ne_nil
    (l := scores.map (fun s => Real.exp (s - m) / (scores.map (fun t => Real.exp (t - m))).sum))
    (by simpa using hne)
  obtain ⟨hk, hle, hlt⟩ := minMaxLoc_spec hck
  rw [List.getElem?_map] at hk
  -- the score at the chosen position
  cases hsk : scores[k]? with
  | none => rw [hsk] at hk; simp at hk
  | some sk =>
    rw [hsk] at hk
    simp only [Option.map_some', Option.some.injEq] at hk
    have hskm : sk ≤ m := hmax sk (List.mem_iff_getElem?.mpr ⟨k, hsk⟩)
    obtain ⟨j0, hj0⟩ := List.mem_iff_getElem?.mp hmem
    have h0 := hle j0 (Real.exp (m - m) / (scores.map (fun t => Real.exp (t - m))).sum)
      (by rw [List.getElem?_map, hj0]; rfl)
    rw [← hk, div_le_div_iff_of_pos_right hpos, Real.exp_le_exp] at h0
    have heq : sk = m := le_antisymm hskm (by linarith)
    subst heq
    refine ⟨k, sk, hsk, ?_, ?_, hpos, _, hs, ?_⟩
    · intro j x hx
      exact hmax x (List.mem_iff_getElem?.mpr ⟨j, hx⟩)
    · intro j x hj hx
      have h1 := hlt j (Real.exp (x - sk) / (scores.map (fun t => Real.exp (t - sk))).sum) hj
        (by rw [List.getElem?_map, hx]; rfl)
      rw [← hk, div_lt_div_iff_of_pos_right hpos, Real.exp_lt_exp] at h1
      linarith
    · rw [hck, hk]

/-- In exact real arithmetic, on an armor whose class scores are non-empty and no longer
than the label list, `classifyArmor` picks the first class attaining the maximum raw score
(which is the class of maximum softmax probability), stores the label at that index as
`number` and that class's softmax probability as `confidence`; a batch holding only this
armor keeps it when that probability reaches the threshold. -/
theorem classifyArmor_exact_argmax {Frame Img Net : Type} (ops : Ops ℝ Frame Img Net)
    (self : NumberClassifier ℝ Net) (armor : Armor ℝ Img)
    (hexp : ops.expf = Real.exp)
    (hne : ops.forward self.net_ armor.number_img ≠ [])
    (hlen : (ops.forward self.net_ armor.number_img).length ≤ self.class_names_.length) :
    ∃ (k : Nat) (m : ℝ) (number : Char),
      (ops.forward self.net_ armor.number_img)[k]? = some m ∧
      (∀ (j : Nat) (x : ℝ), (ops.forward self.net_ armor.number_img)[j]? = some x → x ≤ m) ∧
      (∀ (j : Nat) (x : ℝ), j < k →
        (ops.forward self.net_ armor.number_img)[j]? = some x → x < m) ∧
      self.class_names_[k]? = some number ∧
      (∀ x ∈ ops.forward self.net_ armor.number_img,
        Real.exp (x - m) / ((ops.forward self.net_ armor.number_img).map
            (fun t => Real.exp (t - m))).sum ≤
          Real.exp (m - m) / ((ops.forward self.net_ armor.number_img).map
            (fun t => Real.exp (t - m))).sum) ∧
      classifyArmor ops self armor = .ok
        { armor with
          confidence := Real.exp (m - m) /
            ((ops.forward self.net_ armor.number_img).map (fun t => Real.exp (t - m))).sum
          number := number
          classfication_result := ops.formatResult number
            (Real.exp (m - m) /
              ((ops.forward self.net_ armor.number_img).map (fun t => Real.exp (t - m))).sum
              * 100) } ∧
      (self.threshold ≤ Real.exp (m - m) /
          ((ops.forward self.net_ armor.number_img).map (fun t => Real.exp (t - m))).sum →
        fcClassify ops self [armor] = .ok
          [{ armor with
             confidence := Real.exp (m - m) /
               ((ops.forward self.net_ armor.number_img).map (fun t => Real.exp (t - m))).sum
             number := number
             classfication_result := ops.formatResult number
               (Real.exp (m - m) /
                 ((ops.forward self.net_ armor.number_img).map
                   (fun t => Real.exp (t - m))).sum * 100) }]) ∧
      (k = 3 →
        Real.exp (m - m) /
          ((ops.forward self.net_ armor.number_img).map (fun t => Real.exp (t - m))).sum
          = 92 / 100 →
        self.threshold = 1 / 2 →
        self.class_names_[3]? = some number ∧
        fcClassify ops self [armor] = .ok
          [{ armor with
             confidence := 92 / 100
             number := number
             classfication_result := ops.formatResult number (92 / 100 * 100) }]) := by
  obtain ⟨k, m, hk, hle, hlt, hpos, probs, hs, hml⟩ := softmax_argmax_spec hne
  have hklt : k < self.class_names_.length :=
    lt_of_lt_of_le (List.getElem?_eq_some.mp hk).1 hlen
  have hcl := classifyArmor_ok_iff.mpr
    ⟨probs, _, k, self.class_names_[k], by rw [hexp]; exact hs, hml,
      List.getElem?_eq_getElem hklt, rfl⟩
  have hkeep : self.threshold ≤ Real.exp (m - m) /
      ((ops.forward self.net_ armor.number_img).map (fun t => Real.exp (t - m))).sum →
      fcClassify ops self [armor] = .ok
        [{ armor with
           confidence := Real.exp (m - m) /
             ((ops.forward self.net_ armor.number_img).map (fun t => Real.exp (t - m))).sum
           number := self.class_names_[k]
           classfication_result := ops.formatResult self.class_names_[k]
             (Real.exp (m - m) /
               ((ops.forward self.net_ armor.number_img).map
                 (fun t => Real.exp (t - m))).sum * 100) }] := by
    intro hthr
    rw [fcClassify_singleton hcl, if_neg (not_lt.mpr hthr)]
  refine ⟨k, m, self.class_names_[k], hk, hle, hlt, List.getElem?_eq_getElem hklt, ?_, hcl,
    hkeep, ?_⟩
  · intro x hx
    rw [div_le_div_iff_of_pos_right hpos, Real.exp_le_exp]
    obtain ⟨j, hj⟩ := List.mem_iff_getElem?.mp hx
    linarith [hle j x hj]
  · intro h3 hp ht
    refine ⟨by rw [← h3]; exact List.getElem?_eq_getElem hklt, ?_⟩
    have := hkeep (by rw [hp, ht]; norm_num)
    rw [hp] at this
    exact this

end Argmax

section RoundedExp

/-- The exponential of 0 rounded to 24 bits is 1. -/
theorem roundTo24_exp_zero : roundTo24 (Real.exp 0) = 1 := by
  unfold roundTo24
  rw [Real.exp_zero]
  have h : ⌊(1 : ℝ) * 2 ^ 24 + 1 / 2⌋ = 2 ^ 24 := by
    rw [Int.floor_eq_iff]
    constructor <;> norm_num
  rw [h]
  norm_num

/-- The exponential of `-2^-33` lies within `2^-25` of 1 and rounds to 1. -/
theorem roundTo24_exp_tiny : roundTo24 (Real.exp (0 - (1 / 2) ^ 33)) = 1 := by
  unfold roundTo24
  have hlo : (1 : ℝ) - (1 / 2) ^ 33 ≤ Real.exp (0 - (1 / 2) ^ 33) := by
    have := Real.add_one_le_exp (0 - (1 / 2 : ℝ) ^ 33)
    linarith
  have hhi : Real.exp (0 - (1 / 2 : ℝ) ^ 33) ≤ 1 := by
    rw [Real.exp_le_one_iff]
    norm_num
  have h : ⌊Real.exp (0 - (1 / 2 : ℝ) ^ 33) * 2 ^ 24 + 1 / 2⌋ = 2 ^ 24 := by
    rw [Int.floor_eq_iff]
    constructor
    · have : ((1 : ℝ) - (1 / 2) ^ 33) * 2 ^ 24 + 1 / 2 ≤
          Real.exp (0 - (1 / 2) ^ 33) * 2 ^ 24 + 1 / 2 := by
        have h24 : (0 : ℝ) ≤ 2 ^ 24 := by positivity
        nlinarith
      refine le_trans ?_ this
      norm_num
    · have : Real.exp (0 - (1 / 2 : ℝ) ^ 33) * 2 ^ 24 + 1 / 2 ≤ 1 * 2 ^ 24 + 1 / 2 := by
        have h24 : (0 : ℝ) ≤ 2 ^ 24 := by positivity
        nlinarith
      refine lt_of_le_of_lt this ?_
      norm_num
  rw [h]
  norm_num

end RoundedExp
section RoundedTie

/-- With the exponential rounded to 24 bits, the scores 0 and 2^-33 get equal
probabilities 1/2. -/
theorem softmax_rounded_tie :
    softmax (fun x => roundTo24 (Real.exp x)) [(0 : ℝ), (1 / 2) ^ 33] = some [1 / 2, 1 / 2] := by
  have hpos : (0 : ℝ) < (1 / 2) ^ 33 := by positivity
  have hmax : max_element [(0 : ℝ), (1 / 2) ^ 33] = some ((1 / 2) ^ 33) := by
    simp only [max_element, List.foldl_cons, List.foldl_nil, if_pos hpos]
  simp only [softmax, hmax, List.map_cons, List.map_nil, List.sum_cons, List.sum_nil, sub_self,
    roundTo24_exp_zero, roundTo24_exp_tiny]
  norm_num

/-- C4 (as stated, refuted). With an exponential rounded to a 24-bit significand, the raw
scores 0 and 2^-33 both get probability 1/2; `minMaxLoc` returns position 0, so the armor
gets the label at index 0 although index 1 alone attains the maximum raw score. -/
theorem classifyArmor_rounded_tie_picks_earlier_class :
    (0 : ℝ) < (1 / 2) ^ 33 ∧
    (demoClassifier ℝ (1 / 2)).class_names_[0]? = some '1' ∧
    (demoClassifier ℝ (1 / 2)).class_names_[1]? = some '2' ∧
    classifyArmor
        (demoOps ℝ (fun x => roundTo24 (Real.exp x)) (fun _ => [0, (1 / 2) ^ 33]))
        (demoClassifier ℝ (1 / 2)) (demoArmor ℝ ArmorType.SMALL 0) =
      .ok { demoArmor ℝ ArmorType.SMALL 0 with
            confidence := 1 / 2
            number := '1'
            classfication_result := String.singleton '1' } := by
  refine ⟨by positivity, rfl, rfl, ?_⟩
  have hs := softmax_rounded_tie
  simp only [classifyArmor, demoOps, hs, minMaxLoc, maxLocScan, lt_self_iff_false, if_false,
    demoClassifier, List.getElem?_cons_zero]

end RoundedTie

section MaxProbability

variable {K Frame Img Net : Type}
  [LinearOrder K] [Sub K] [Div K] [Add K] [Zero K] [Mul K] [OfNat K 100]

/-- C4 (amended). Whatever the arithmetic of the value type (exact or rounded), on an armor
whose class scores are non-empty and no longer than the label list `classifyArmor`
computes the vector `expf (s - m) / sum of expf (t - m)` with `m` the maximum score, takes
the first position attaining the maximum of that vector, stores the label at that position
as `number` and the maximum as `confidence`; a batch holding only this armor keeps it
exactly when that confidence reaches the threshold, in particular when the position is 3.
In exact real arithmetic that position is the first one attaining the maximum raw score,
and with probability 0.92 at position 3 and threshold 0.5 the armor is kept with the label
at index 3 and confidence 0.92. -/
theorem classifyArmor_selects_max_probability (ops : Ops K Frame Img Net)
    (self : NumberClassifier K Net) (armor : Armor K Img)
    (hne : ops.forward self.net_ armor.number_img ≠ [])
    (hlen : (ops.forward self.net_ armor.number_img).length ≤ self.class_names_.length) :
    (∃ (m : K) (probs : List K) (confidence : K) (label_id : Nat) (number : Char),
      m ∈ ops.forward self.net_ armor.number_img ∧
      (∀ x ∈ ops.forward self.net_ armor.number_img, x ≤ m) ∧
      probs = (ops.forward self.net_ armor.number_img).map (fun s =>
        ops.expf (s - m) /
          ((ops.forward self.net_ armor.number_img).map (fun t => ops.expf (t - m))).sum) ∧
      probs[label_id]? = some confidence ∧
      (∀ (j : Nat) (x : K), probs[j]? = some x → x ≤ confidence) ∧
      (∀ (j : Nat) (x : K), j < label_id → probs[j]? = some x → x < confidence) ∧
      self.class_names_[label_id]? = some number ∧
      classifyArmor ops self armor = .ok
        { armor with
          confidence := confidence
          number := number
          classfication_result := ops.formatResult number (confidence * 100) } ∧
      (fcClassify ops self [armor] = .ok
          [{ armor with
             confidence := confidence
             number := number
             classfication_result := ops.formatResult number (confidence * 100) }] ↔
        self.threshold ≤ confidence) ∧
      (label_id = 3 → self.threshold ≤ confidence →
        self.class_names_[3]? = some number ∧
        fcClassify ops self [armor] = .ok
          [{ armor with
             confidence := confidence
             number := number
             classfication_result := ops.formatResult number (confidence * 100) }])) ∧
    (∀ (opsR : Ops ℝ Frame Img Net) (selfR : NumberClassifier ℝ Net) (armorR : Armor ℝ Img),
      opsR.expf = Real.exp →
      opsR.forward selfR.net_ armorR.number_img ≠ [] →
      (opsR.forward selfR.net_ armorR.number_img).length ≤ selfR.class_names_.length →
      ∃ (k : Nat) (m : ℝ) (number : Char),
        (opsR.forward selfR.net_ armorR.number_img)[k]? = some m ∧
        (∀ (j : Nat) (x : ℝ), (opsR.forward selfR.net_ armorR.number_img)[j]? = some x → x ≤ m) ∧
        (∀ (j : Nat) (x : ℝ), j < k →
          (opsR.forward selfR.net_ armorR.number_img)[j]? = some x → x < m) ∧
        selfR.class_names_[k]? = some number ∧
        classifyArmor opsR selfR armorR = .ok
          { armorR with
            confidence := Real.exp (m - m) /
              ((opsR.forward selfR.net_ armorR.number_img).map (fun t => Real.exp (t - m))).sum
            number := number
            classfication_result := opsR.formatResult number
              (Real.exp (m - m) /
                ((opsR.forward selfR.net_ armorR.number_img).map
                  (fun t => Real.exp (t - m))).sum * 100) } ∧
        (k = 3 →
          Real.exp (m - m) /
            ((opsR.forward selfR.net_ armorR.number_img).map (fun t => Real.exp (t - m))).sum
            = 92 / 100 →
          selfR.threshold = 1 / 2 →
          selfR.class_names_[3]? = some number ∧
          fcClassify opsR selfR [armorR] = .ok
            [{ armorR with
               confidence := 92 / 100
               number := number
               classfication_result := opsR.formatResult number (92 / 100 * 100) }])) := by
  refine ⟨?_, ?_⟩
  · obtain ⟨m, hm⟩ := max_element_ne_nil hne
    obtain ⟨hmem, hmax⟩ := max_element_spec hm
    have hs : softmax ops.expf (ops.forward self.net_ armor.number_img) =
        some ((ops.forward self.net_ armor.number_img).map (fun s =>
          ops.expf (s - m) /
            ((ops.forward self.net_ armor.number_img).map (fun t => ops.expf (t - m))).sum)) := by
      simp only [softmax, hm, List.map_map]
      rfl
    have hpne : (ops.forward self.net_ armor.number_img).map (fun s =>
          ops.expf (s - m) /
            ((ops.forward self.net_ armor.number_img).map (fun t => ops.expf (t - m))).sum)
        ≠ [] := by
      simpa using hne
    obtain ⟨c, k, hck⟩ := minMaxLoc_ne_nil hpne
    obtain ⟨hk, hle, hlt⟩ := minMaxLoc_spec hck
    have hklt : k < self.class_names_.length := by
      have := (List.getElem?_eq_some.mp hk).1
      rw [List.length_map] at this
      omega
    have hcl : classifyArmor ops self armor = .ok
        { armor with
          confidence := c
          number := self.class_names_[k]
          classfication_result := ops.formatResult self.class_names_[k] (c * 100) } := by
      unfold classifyArmor
      simp only [hs, hck, List.getElem?_eq_getElem hklt]
    have hrun := fcClassify_singleton hcl
    refine ⟨m, _, c, k, self.class_names_[k], hmem, hmax, rfl, hk, hle, hlt,
      List.getElem?_eq_getElem hklt, hcl, ?_, ?_⟩
    · rw [hrun]
      by_cases hc : c < self.threshold
      · simp [hc, not_le.mpr hc]
      · simp [hc, not_lt.mp hc]
    · intro h3 hthr
      refine ⟨by rw [← h3]; exact List.getElem?_eq_getElem hklt, ?_⟩
      rw [hrun, if_neg (not_lt.mpr hthr)]
  · intro opsR selfR armorR hexp hneR hlenR
    obtain ⟨k, m, number, hk, hle, hlt, hn, -, hcl, -, hD⟩ :=
      classifyArmor_exact_argmax opsR selfR armorR hexp hneR hlenR
    exact ⟨k, m, number, hk, hle, hlt, hn, hcl, hD⟩

end MaxProbability
/-- Instance of C4 (amended) realising scenario D in exact arithmetic: class 3 scores
`log 46` and the others 0, so its probability is 0.92; with threshold 0.5 the armor is
kept with the label at index 3. -/
theorem classifyArmor_selects_max_probability_witness :
    fcClassify (demoOps ℝ Real.exp (fun _ => [0, 0, 0, Real.log 46, 0]))
        (demoClassifier ℝ (1 / 2)) [demoArmor ℝ ArmorType.SMALL 0] =
      .ok [{ demoArmor ℝ ArmorType.SMALL 0 with
             confidence := 92 / 100
             number := '4'
             classfication_result := String.singleton '4' }] := by
  have hlog : (0 : ℝ) < Real.log 46 := Real.log_pos (by norm_num)
  obtain ⟨⟨m, probs, c, k, number, hmem, hmax, hprobs, hk, hle, -, hn, -, -, hD⟩, -⟩ :=
    classifyArmor_selects_max_probability
      (demoOps ℝ Real.exp (fun _ => [0, 0, 0, Real.log 46, 0]))
      (demoClassifier ℝ (1 / 2)) (demoArmor ℝ ArmorType.SMALL 0)
      (by simp [demoOps]) (by simp [demoOps, demoClassifier])
  have hm : m = Real.log 46 := by
    have h1 := hmax (Real.log 46) (by simp [demoOps])
    simp only [demoOps, List.mem_cons, List.mem_singleton, List.not_mem_nil, or_false] at hmem
    rcases hmem with h | h | h | h | h <;> first | exact h | (rw [h] at h1; linarith)
  subst hm
  have hp : probs = [1 / 50, 1 / 50, 1 / 50, 46 / 50, 1 / 50] := by
    rw [hprobs]
    simp only [demoOps, List.map_cons, List.map_nil, List.sum_cons, List.sum_nil, sub_self,
      zero_sub, Real.exp_zero, Real.exp_neg, Real.exp_log (by norm_num : (0 : ℝ) < 46)]
    norm_num
  subst hp
  have hc := hle 3 (46 / 50) (by simp)
  have hk3 : k = 3 ∧ c = 46 / 50 := by
    rcases k with _ | _ | _ | _ | _ | k
    · simp at hk; rw [← hk] at hc; norm_num at hc
    · simp at hk; rw [← hk] at hc; norm_num at hc
    · simp at hk; rw [← hk] at hc; norm_num at hc
    · simp at hk; exact ⟨rfl, hk.symm⟩
    · simp at hk; rw [← hk] at hc; norm_num at hc
    · simp at hk
  obtain ⟨rfl, rfl⟩ := hk3
  have hnum : number = '4' := by
    simp [demoClassifier] at hn
    exact hn.symm
  subst hnum
  have hres := (hD rfl (by simp only [demoClassifier]; norm_num)).2
  rw [hres]
  simp only [demoOps]
  norm_num

/-! ## fcClassify: the threshold filter -/

section Filter

variable {K Frame Img Net : Type} [LinearOrderedField K]

/-- C2. On a batch of one armor whose scoring succeeds, `fcClassify` keeps the armor
exactly when the computed confidence is at least the threshold: it is kept when the
confidence equals the threshold and dropped when the confidence is strictly below. -/
theorem fcClassify_single_threshold (ops : Ops K Frame Img Net) (self : NumberClassifier K Net)
    (armor scored : Armor K Img) (h : classifyArmor ops self armor = .ok scored) :
    (fcClassify ops self [armor] = .ok [scored] ↔ self.threshold ≤ scored.confidence) ∧
    (fcClassify ops self [armor] = .ok [] ↔ scored.confidence < self.threshold) ∧
    (scored.confidence = self.threshold → fcClassify ops self [armor] = .ok [scored]) := by
  rw [fcClassify_singleton h]
  by_cases hc : scored.confidence < self.threshold
  · simp [hc, not_le.mpr hc, ne_of_lt hc]
  · simp [hc, not_lt.mp hc]

/-- C9. When `extractNumbers` followed by `fcClassify` finishes on a frame and an armor
list, running both again on the surviving armors with the same frame and configuration
leaves every survivor unchanged (same number, confidence and image) and removes none. -/
theorem extract_classify_idempotent (ops : Ops K Frame Img Net) (self : NumberClassifier K Net)
    (src : Frame) (armors survivors : List (Armor K Img))
    (h : fcClassify ops self (extractNumbers ops src armors) = .ok survivors) :
    extractNumbers ops src survivors = survivors ∧
    fcClassify ops self (extractNumbers ops src survivors) = .ok survivors := by
  have hinv := fcLoop_ok_invariant ops self
    (fun s => classifyArmor ops self s = .ok s ∧ extractNumber ops src s = s)
    (fun a => extractNumber ops src a = a)
    (fun a s hR hs => ⟨classifyArmor_idem hs, extractNumber_fixed_of_classify hR hs⟩)
    (extractNumbers ops src armors).length 0 (extractNumbers ops src armors) survivors
    (by omega)
    (by
      intro j a ha
      refine ⟨fun hlt => absurd hlt (by omega), fun _ => ?_⟩
      have hmem : a ∈ extractNumbers ops src armors := List.mem_iff_getElem?.mpr ⟨j, ha⟩
      obtain ⟨a0, -, rfl⟩ := List.mem_map.mp hmem
      exact extractNumber_idem ops src a0)
    h
  have hfix : extractNumbers ops src survivors = survivors := by
    unfold extractNumbers
    conv_rhs => rw [← List.map_id survivors]
    exact List.map_congr_left (fun s hs => (hinv s hs).1.2)
  refine ⟨hfix, ?_⟩
  rw [hfix]
  exact fcLoop_fixed (fun s hs => ⟨(hinv s hs).1.1, (hinv s hs).2⟩) survivors.length 0 (by omega)

/-- Instance of C2 on the boundary: confidence 1/2 and threshold 1/2, the armor is kept. -/
theorem fcClassify_single_threshold_witness :
    fcClassify (demoOps ℝ Real.exp (fun _ => [0, 0])) (demoClassifier ℝ (1 / 2))
        [demoArmor ℝ ArmorType.SMALL 0] =
      .ok [{ demoArmor ℝ ArmorType.SMALL 0 with
             confidence := 1 / 2
             number := '1'
             classfication_result := String.singleton '1' }] :=
  (fcClassify_single_threshold (demoOps ℝ Real.exp (fun _ => [0, 0])) (demoClassifier ℝ (1 / 2))
    (demoArmor ℝ ArmorType.SMALL 0)
    { demoArmor ℝ ArmorType.SMALL 0 with
      confidence := 1 / 2
      number := '1'
      classfication_result := String.singleton '1' }
    (by
      simp [classifyArmor, softmax, max_element, minMaxLoc, maxLocScan, demoOps,
        demoClassifier, demoArmor]
      norm_num)).2.2 rfl


/-- Instance of C9: of a SMALL and a LARGE armor the first run keeps the SMALL one
(confidence 0.92 against threshold 3/5) and drops the LARGE one (confidence 1/5) in its
last iteration; the second run on the survivor returns it unchanged. -/
theorem extract_classify_idempotent_witness :
    fcClassify (demoOps ℝ Real.exp (demoForward ℝ (Real.log 46))) (demoClassifier ℝ (3 / 5))
        (extractNumbers (demoOps ℝ Real.exp (demoForward ℝ (Real.log 46))) ()
          [demoArmor ℝ ArmorType.SMALL 1, demoArmor ℝ ArmorType.LARGE 1]) =
      .ok [{ extractNumber (demoOps ℝ Real.exp (demoForward ℝ (Real.log 46))) ()
               (demoArmor ℝ ArmorType.SMALL 1) with
             confidence := 92 / 100
             number := '4'
             classfication_result := String.singleton '4' }] ∧
    fcClassify (demoOps ℝ Real.exp (demoForward ℝ (Real.log 46))) (demoClassifier ℝ (3 / 5))
        (extractNumbers (demoOps ℝ Real.exp (demoForward ℝ (Real.log 46))) ()
          [{ extractNumber (demoOps ℝ Real.exp (demoForward ℝ (Real.log 46))) ()
               (demoArmor ℝ ArmorType.SMALL 1) with
             confidence := 92 / 100
             number := '4'
             classfication_result := String.singleton '4' }]) =
      .ok [{ extractNumber (demoOps ℝ Real.exp (demoForward ℝ (Real.log 46))) ()
               (demoArmor ℝ ArmorType.SMALL 1) with
             confidence := 92 / 100
             number := '4'
             classfication_result := String.singleton '4' }] := by
  have hlog : (0 : ℝ) < Real.log 46 := Real.log_pos (by norm_num)
  have hlog2 : ¬ Real.log 46 < 0 := not_lt.mpr hlog.le
  have hrun : fcClassify (demoOps ℝ Real.exp (demoForward ℝ (Real.log 46)))
      (demoClassifier ℝ (3 / 5))
      (extractNumbers (demoOps ℝ Real.exp (demoForward ℝ (Real.log 46))) ()
        [demoArmor ℝ ArmorType.SMALL 1, demoArmor ℝ ArmorType.LARGE 1]) =
      .ok [{ extractNumber (demoOps ℝ Real.exp (demoForward ℝ (Real.log 46))) ()
               (demoArmor ℝ ArmorType.SMALL 1) with
             confidence := 92 / 100
             number := '4'
             classfication_result := String.singleton '4' }] := by
    simp [fcClassify, fcLoop, eraseBelow, extractNumbers,
      classifyArmor, softmax, max_element, minMaxLoc, maxLocScan, demoOps, demoForward,
      demoClassifier, demoArmor, extractNumber, warpWidth, small_warp_width, large_warp_width,
      hlog, hlog2, Real.exp_neg, Real.exp_log]
    norm_num [maxLocScan, fcLoop, eraseBelow]
  have hres := extract_classify_idempotent _ _ _ _ _ hrun
  exact ⟨hrun, hres.2⟩


/-- C1 (evaluation). Two armors whose `confidence` holds 0 on entry, a network scoring both
classes 0 (softmax confidence 1/2 for either armor) and threshold 1/4: each armor, scored,
has confidence 1/2, above the threshold; yet the filter run inside the first iteration
erases the second armor before it is scored, and the second iteration finds no element
under the iterator. -/
theorem fcClassify_erases_unscored_armor :
    classifyArmor (demoOps ℝ Real.exp (fun _ => [0, 0])) (demoClassifier ℝ (1 / 4))
        (demoArmor ℝ ArmorType.SMALL 0) =
      .ok { demoArmor ℝ ArmorType.SMALL 0 with
            confidence := 1 / 2
            number := '1'
            classfication_result := String.singleton '1' } ∧
    eraseBelow (1 / 4 : ℝ)
        ([demoArmor ℝ ArmorType.SMALL 0, demoArmor ℝ ArmorType.SMALL 0].set 0
          { demoArmor ℝ ArmorType.SMALL 0 with
            confidence := 1 / 2
            number := '1'
            classfication_result := String.singleton '1' }) =
      [{ demoArmor ℝ ArmorType.SMALL 0 with
         confidence := 1 / 2
         number := '1'
         classfication_result := String.singleton '1' }] ∧
    fcClassify (demoOps ℝ Real.exp (fun _ => [0, 0])) (demoClassifier ℝ (1 / 4))
        [demoArmor ℝ ArmorType.SMALL 0, demoArmor ℝ ArmorType.SMALL 0] =
      .error FcError.erasedElement := by
  refine ⟨?_, ?_, ?_⟩
  · simp [classifyArmor, softmax, max_element, minMaxLoc, maxLocScan, demoOps,
      demoClassifier, demoArmor]
    norm_num
  · simp [eraseBelow, demoArmor]
    norm_num
  · simp [fcClassify, fcLoop, classifyArmor, softmax, max_element, minMaxLoc, maxLocScan,
      eraseBelow, demoOps, demoClassifier, demoArmor]
    norm_num

/-- A second input on which the in-loop filter breaks the batch, whatever the armors held
on entry: the first armor scores 1/5, below the threshold 3/5, and is erased in the first
iteration; the second armor moves to the front and is never scored, and the second
iteration finds no element under the iterator. -/
theorem fcClassify_skips_after_erase :
    fcClassify (demoOps ℝ Real.exp (demoForward ℝ (Real.log 46))) (demoClassifier ℝ (3 / 5))
        (extractNumbers (demoOps ℝ Real.exp (demoForward ℝ (Real.log 46))) ()
          [demoArmor ℝ ArmorType.LARGE 1, demoArmor ℝ ArmorType.SMALL 1]) =
      .error FcError.erasedElement := by
  have hlog : (0 : ℝ) < Real.log 46 := Real.log_pos (by norm_num)
  have hlog2 : ¬ Real.log 46 < 0 := not_lt.mpr hlog.le
  simp [fcClassify, fcLoop, eraseBelow, extractNumbers,
    classifyArmor, softmax, max_element, minMaxLoc, maxLocScan, demoOps, demoForward,
    demoClassifier, demoArmor, extractNumber, warpWidth, small_warp_width, large_warp_width,
    hlog, hlog2, Real.exp_neg, Real.exp_log]
  norm_num [maxLocScan, fcLoop, eraseBelow]

end Filter

/-! ## extractNumbers: geometry -/

section Geometry

variable {K Frame Img Net : Type} [LinearOrderedField K]

/-- C7. For each light of an armor, with `mid` the midpoint of `top` and `bottom` and
`diff = bottom - top`: the top vertex is `mid - diff`, the bottom vertex is `mid + diff`,
the two vertices are `height_factor = 2` times `diff` apart and have `mid` as their
midpoint, and they lie half of `diff` beyond `top` and `bottom` respectively
(exact arithmetic, both lights). -/
theorem numberVertices_extend_lights (armor : Armor K Img) :
    (height_factor : K) = 2 ∧
    -- left light
    (numberVertices armor).top_left =
      ((armor.left_light.top.add armor.left_light.bottom).div 2).sub
        (armor.left_light.bottom.sub armor.left_light.top) ∧
    (numberVertices armor).bottom_left =
      ((armor.left_light.top.add armor.left_light.bottom).div 2).add
        (armor.left_light.bottom.sub armor.left_light.top) ∧
    (numberVertices armor).bottom_left.sub (numberVertices armor).top_left =
      (armor.left_light.bottom.sub armor.left_light.top).mul height_factor ∧
    ((numberVertices armor).top_left.add (numberVertices armor).bottom_left).div 2 =
      (armor.left_light.top.add armor.left_light.bottom).div 2 ∧
    (numberVertices armor).top_left =
      armor.left_light.top.sub ((armor.left_light.bottom.sub armor.left_light.top).div 2) ∧
    (numberVertices armor).bottom_left =
      armor.left_light.bottom.add ((armor.left_light.bottom.sub armor.left_light.top).div 2) ∧
    -- right light
    (numberVertices armor).top_right =
      ((armor.right_light.top.add armor.right_light.bottom).div 2).sub
        (armor.right_light.bottom.sub armor.right_light.top) ∧
    (numberVertices armor).bottom_right =
      ((armor.right_light.top.add armor.right_light.bottom).div 2).add
        (armor.right_light.bottom.sub armor.right_light.top) ∧
    (numberVertices armor).bottom_right.sub (numberVertices armor).top_right =
      (armor.right_light.bottom.sub armor.right_light.top).mul height_factor ∧
    ((numberVertices armor).top_right.add (numberVertices armor).bottom_right).div 2 =
      (armor.right_light.top.add armor.right_light.bottom).div 2 ∧
    (numberVertices armor).top_right =
      armor.right_light.top.sub ((armor.right_light.bottom.sub armor.right_light.top).div 2) ∧
    (numberVertices armor).bottom_right =
      armor.right_light.bottom.add
        ((armor.right_light.bottom.sub armor.right_light.top).div 2) := by
  refine ⟨rfl, ?_⟩
  simp only [numberVertices, height_factor, Point2f.add, Point2f.sub, Point2f.div, Point2f.mul,
    Point2f.mk.injEq]
  refine ⟨⟨?_, ?_⟩, ⟨?_, ?_⟩, ⟨?_, ?_⟩, ⟨?_, ?_⟩, ⟨?_, ?_⟩, ⟨?_, ?_⟩, ⟨?_, ?_⟩, ⟨?_, ?_⟩,
    ⟨?_, ?_⟩, ⟨?_, ?_⟩, ⟨?_, ?_⟩, ⟨?_, ?_⟩⟩ <;> ring

/-- C8 (as stated, refuted). In the 35 columns wide image of a SMALL armor the crop starts
at column 7 and is 20 wide: 7 columns lie left of it and 8 right of it. -/
theorem roi_small_not_centered :
    (roiRect (warpWidth ArmorType.SMALL)).x = 7 ∧
    warpWidth ArmorType.SMALL -
      ((roiRect (warpWidth ArmorType.SMALL)).x + (roiRect (warpWidth ArmorType.SMALL)).width) = 8 ∧
    (roiRect (warpWidth ArmorType.SMALL)).x ≠
      warpWidth ArmorType.SMALL -
        ((roiRect (warpWidth ArmorType.SMALL)).x +
          (roiRect (warpWidth ArmorType.SMALL)).width) := by
  decide

/-- C8 (amended). For both armor types (warped image 50 wide for LARGE, 35 wide for SMALL,
28 high for both) the 20x28 region of interest lies inside the warped image; for LARGE 15
columns lie on either side of it, for SMALL 7 columns lie left of it and 8 right of it. -/
theorem roi_inside_warped_image :
    warpWidth ArmorType.LARGE = 50 ∧ warpWidth ArmorType.SMALL = 35 ∧ warp_height = 28 ∧
    (∀ t : ArmorType,
      (roiRect (warpWidth t)).width = 20 ∧ (roiRect (warpWidth t)).height = 28 ∧
      0 ≤ (roiRect (warpWidth t)).x ∧
      (roiRect (warpWidth t)).x + (roiRect (warpWidth t)).width ≤ warpWidth t ∧
      0 ≤ (roiRect (warpWidth t)).y ∧
      (roiRect (warpWidth t)).y + (roiRect (warpWidth t)).height ≤ warp_height) ∧
    (roiRect (warpWidth ArmorType.LARGE)).x = 15 ∧
    warpWidth ArmorType.LARGE -
      ((roiRect (warpWidth ArmorType.LARGE)).x + (roiRect (warpWidth ArmorType.LARGE)).width) = 15 ∧
    (roiRect (warpWidth ArmorType.SMALL)).x = 7 ∧
    warpWidth ArmorType.SMALL -
      ((roiRect (warpWidth ArmorType.SMALL)).x + (roiRect (warpWidth ArmorType.SMALL)).width) = 8 := by
  refine ⟨by decide, by decide, by decide, ?_, by decide, by decide, by decide, by decide⟩
  intro t
  cases t <;> decide

end Geometry

/-! ## extractNumbers: degenerate quadrilaterals -/

section Degenerate

variable {K Frame Img Net : Type} [LinearOrderedField K]

/-- C5 (as stated, refuted). An armor whose lights have collapsed to the points (0, 10)
and (30, 10) has a number quadrilateral without area; `extractNumbers` keeps the armor,
warps that quadrilateral and stores the resulting patch. -/
theorem extractNumbers_warps_degenerate_armor :
    numberVertices (demoDegenerateArmor ℝ) =
      { bottom_left := ⟨0, 10⟩, top_left := ⟨0, 10⟩,
        top_right := ⟨30, 10⟩, bottom_right := ⟨30, 10⟩ } ∧
    extractNumbers (demoOps ℝ Real.exp (fun _ => [0, 0])) () [demoDegenerateArmor ℝ] =
      [{ demoDegenerateArmor ℝ with
         number_img := Patch.otsu (Patch.gray (Patch.roi
           (Patch.warped
             { bottom_left := ⟨0, 10⟩, top_left := ⟨0, 10⟩,
               top_right := ⟨30, 10⟩, bottom_right := ⟨30, 10⟩ } 35 28)
           { x := 7, y := 0, width := 20, height := 28 })) }] := by
  have hq : numberVertices (demoDegenerateArmor ℝ) =
      { bottom_left := ⟨0, 10⟩, top_left := ⟨0, 10⟩,
        top_right := ⟨30, 10⟩, bottom_right := ⟨30, 10⟩ } := by
    simp [numberVertices, demoDegenerateArmor, demoLight, height_factor, Point2f.add,
      Point2f.sub, Point2f.div, Point2f.mul]
  refine ⟨hq, ?_⟩
  simp only [extractNumbers, extractNumber, List.map_cons, List.map_nil, hq]
  rfl

/-- C5 (amended). The loop of `extractNumbers` has no degeneracy test: it keeps every armor
in place and stores on each the binarised crop of the warp of its number quadrilateral,
whatever that quadrilateral is. -/
theorem extractNumbers_keeps_every_armor (ops : Ops K Frame Img Net) (src : Frame)
    (armors : List (Armor K Img)) :
    (extractNumbers ops src armors).length = armors.length ∧
    ∀ i : Nat, (extractNumbers ops src armors)[i]? =
      (armors[i]?).map (fun armor =>
        { armor with
          number_img := ops.thresholdOtsu (ops.cvtColorGray (ops.crop
            (ops.warpPerspective src (numberVertices armor)
              (targetVertices (warpWidth armor.armor_type)) (warpWidth armor.armor_type)
              warp_height)
            (roiRect (warpWidth armor.armor_type)))) }) := by
  refine ⟨by simp [extractNumbers], ?_⟩
  intro i
  simp only [extractNumbers, List.getElem?_map]
  rfl

end Degenerate

/-! ## Constructor -/

section Constructor

variable {K Net : Type}

/-- C6 (as stated, refuted). With a model that loads and a label file that cannot be
opened, and likewise with an empty label file, the constructor returns a classifier whose
label list is empty. -/
theorem new_accepts_missing_labels :
    NumberClassifier.new (fun _ => some ()) (fun _ => none)
        (String.singleton 'm') (String.singleton 'l') (1 / 2 : ℚ) =
      some { threshold := 1 / 2, net_ := (), class_names_ := [] } ∧
    NumberClassifier.new (fun _ => some ()) (fun _ => some [])
        (String.singleton 'm') (String.singleton 'l') (1 / 2 : ℚ) =
      some { threshold := 1 / 2, net_ := (), class_names_ := [] } :=
  ⟨rfl, rfl⟩

/-- C6 (amended). Whenever the model loads, constructing a classifier from a label
resource that is missing or empty succeeds and yields a classifier with zero labels. -/
theorem new_without_labels (readNetFromONNX : String → Option Net)
    (readFile : String → Option (List Char)) (model_path label_path : String) (thre : K)
    (net : Net) (hnet : readNetFromONNX model_path = some net)
    (hlabels : readFile label_path = none ∨ readFile label_path = some []) :
    NumberClassifier.new readNetFromONNX readFile model_path label_path thre =
      some { threshold := thre, net_ := net, class_names_ := [] } := by
  unfold NumberClassifier.new
  rw [hnet]
  rcases hlabels with h | h <;> rw [h] <;> rfl

/-- Instance of C6 (amended) with a label file that cannot be opened. -/
theorem new_without_labels_witness :
    NumberClassifier.new (fun _ => some ()) (fun _ => none)
        (String.singleton 'm') (String.singleton 'l') (1 / 2 : ℚ) =
      some { threshold := 1 / 2, net_ := (), class_names_ := [] } :=
  new_without_labels (fun _ => some ()) (fun _ => none) (String.singleton 'm')
    (String.singleton 'l') (1 / 2 : ℚ) () rfl (Or.inl rfl)

end Constructor

/-! ## Labels -/

section Labels

/-- What one `getline` on a non-empty stream returns: the characters up to the first line
break, which is consumed, or the whole stream when it holds no line break. -/
theorem getline_spec : ∀ (stream : List Char), stream ≠ [] →
    ∃ line rest, getline stream = some (line, rest) ∧ '\n' ∉ line ∧
      (stream = line ++ '\n' :: rest ∨ (stream = line ∧ rest = [])) := by
  intro stream
  induction stream with
  | nil => intro h; exact absurd rfl h
  | cons c cs ih =>
    intro _
    by_cases hc : c = '\n'
    · subst hc
      exact ⟨[], cs, by simp [getline], by simp, Or.inl rfl⟩
    · by_cases hcs : cs = []
      · subst hcs
        exact ⟨[c], [], by simp [getline, hc], by simpa using fun h => hc h.symm, Or.inr ⟨rfl, rfl⟩⟩
      · obtain ⟨line, rest, hg, hnl, hdec⟩ := ih hcs
        refine ⟨c :: line, rest, by simp [getline, hc, hg], ?_, ?_⟩
        · simp only [List.mem_cons, not_or]
          exact ⟨fun h => hc h.symm, hnl⟩
        · rcases hdec with h | ⟨h, hr⟩
          · exact Or.inl (by rw [h]; rfl)
          · exact Or.inr ⟨by rw [← h], hr⟩

theorem textLines_nil : textLines [] = [] := by
  simp [textLines, List.splitOn]

/-- A text without line break is a single line. -/
theorem textLines_single {line : List Char} (hne : line ≠ []) (hnl : '\n' ∉ line) :
    textLines line = [line] := by
  have hlast : line.getLast? ≠ some '\n' := by
    intro h
    exact hnl (List.mem_of_getLast?_eq_some h)
  have hsplit : line.splitOn '\n' = [line] := by
    apply List.splitOnP_eq_single
    intro x hx hp
    rw [eq_of_beq hp] at hx
    exact hnl hx
  simp [textLines, hne, hlast, hsplit]

/-- The first line of a text ends at its first line break; the other lines are the lines
of what follows. -/
theorem textLines_cons {line : List Char} (rest : List Char) (hnl : '\n' ∉ line) :
    textLines (line ++ '\n' :: rest) = line :: textLines rest := by
  have hsplit : (line ++ '\n' :: rest).splitOn '\n' = line :: rest.splitOn '\n' := by
    apply List.splitOnP_first
    · intro x hx hp
      rw [eq_of_beq hp] at hx
      exact hnl hx
    · simp
  have hne : rest.splitOn '\n' ≠ [] := List.splitOnP_ne_nil _ _
  by_cases hr : rest = []
  · subst hr
    unfold textLines
    rw [if_pos (Or.inr (List.getLast?_concat line)), hsplit, if_pos (Or.inl rfl)]
    rfl
  · have hlast : (line ++ '\n' :: rest).getLast? = rest.getLast? := by
      obtain ⟨ys, a, rfl⟩ : ∃ ys a, rest = ys ++ [a] :=
        ⟨rest.dropLast, rest.getLast hr, (List.dropLast_append_getLast hr).symm⟩
      have hassoc : line ++ '\n' :: (ys ++ [a]) = (line ++ '\n' :: ys) ++ [a] := by simp
      rw [hassoc, List.getLast?_concat, List.getLast?_concat]
    unfold textLines
    rw [hlast, hsplit]
    simp only [List.append_eq_nil, List.cons_ne_nil, and_false, false_or, hr]
    by_cases hl : rest.getLast? = some '\n'
    · simp only [hl, if_true]
      exact List.dropLast_cons_of_ne_nil hne
    · simp only [hl, if_false]

/-- The label loop with enough fuel appends one label per line of the stream. -/
theorem readLabelsLoop_spec : ∀ (fuel : Nat) (stream class_names_ : List Char),
    stream.length < fuel →
    readLabelsLoop fuel stream class_names_ = class_names_ ++ (textLines stream).map line0 := by
  intro fuel
  induction fuel with
  | zero => intro stream _ h; exact absurd h (by omega)
  | succ fuel ih =>
    intro stream class_names_ hlen
    by_cases hs : stream = []
    · subst hs
      simp [readLabelsLoop, getline, textLines_nil]
    · obtain ⟨line, rest, hg, hnl, hdec⟩ := getline_spec stream hs
      simp only [readLabelsLoop, hg]
      rcases hdec with h | ⟨h, hr⟩
      · have hrest : rest.length < fuel := by
          have := congrArg List.length h
          simp only [List.length_append, List.length_cons] at this
          omega
        rw [ih rest _ hrest, h, textLines_cons rest hnl]
        simp
      · subst hr
        have hfuel : ([] : List Char).length < fuel := by
          cases stream with
          | nil => exact absurd rfl hs
          | cons c cs => simp only [List.length_cons] at hlen; simp only [List.length_nil]; omega
        rw [ih [] _ hfuel, textLines_nil, ← h, textLines_single hs (h ▸ hnl)]
        simp

/-- The labels read from a stream are the first characters of its lines, in order. -/
theorem readLabels_eq (stream : List Char) :
    readLabels stream = (textLines stream).map line0 := by
  unfold readLabels
  rw [readLabelsLoop_spec _ _ _ (Nat.lt_succ_self _)]
  simp

end Labels
section LabelLookup

variable {K Frame Img Net : Type} [LinearOrderedField K]

/-- C10. The constructor stores one label per line of the label resource, the first
character of each line in line order (the null character for an empty line); and when the
network yields at least one class score and no more scores than there are labels, the
index found by `minMaxLoc` is within the label list, so the lookup `class_names_[label_id]`
in `classifyArmor` finds a label: `classifyArmor` returns the armor carrying that label,
and `fcClassify` on a batch holding the armor returns a list. -/
theorem labels_per_line_and_lookup_in_bounds (ops : Ops K Frame Img Net)
    (self : NumberClassifier K Net) (armor : Armor K Img)
    (readNetFromONNX : String → Option Net) (readFile : String → Option (List Char))
    (model_path label_path : String) (thre : K) (stream : List Char)
    (hne : ops.forward self.net_ armor.number_img ≠ [])
    (hlen : (ops.forward self.net_ armor.number_img).length ≤ self.class_names_.length) :
    readLabels stream = (textLines stream).map line0 ∧
    (readLabels stream).length = (textLines stream).length ∧
    (NumberClassifier.new readNetFromONNX readFile model_path label_path thre).map
        (fun c => c.class_names_) =
      (readNetFromONNX model_path).map
        (fun _ => (textLines ((readFile label_path).getD [])).map line0) ∧
    ∃ probs confidence label_id number,
      softmax ops.expf (ops.forward self.net_ armor.number_img) = some probs ∧
      minMaxLoc probs = some (confidence, label_id) ∧
      label_id < self.class_names_.length ∧
      self.class_names_[label_id]? = some number ∧
      classifyArmor ops self armor = .ok
        { armor with
          confidence := confidence
          number := number
          classfication_result := ops.formatResult number (confidence * 100) } ∧
      ∃ out, fcClassify ops self [armor] = .ok out := by
  refine ⟨readLabels_eq stream, by rw [readLabels_eq, List.length_map], ?_, ?_⟩
  · unfold NumberClassifier.new
    cases readNetFromONNX model_path with
    | none => rfl
    | some net => simp [readLabels_eq]
  · obtain ⟨m, hm⟩ := max_element_ne_nil hne
    have hs : ∃ probs, softmax ops.expf (ops.forward self.net_ armor.number_img) = some probs := by
      simp [softmax, hm]
    obtain ⟨probs, hs⟩ := hs
    have hpl := softmax_length hs
    have hpne : probs ≠ [] := by
      intro h
      rw [h] at hpl
      exact hne (List.length_eq_zero.mp hpl.symm)
    obtain ⟨c, k, hck⟩ := minMaxLoc_ne_nil hpne
    have hk := (List.getElem?_eq_some.mp (minMaxLoc_spec hck).1).1
    have hklt : k < self.class_names_.length := by omega
    have hcl : classifyArmor ops self armor = .ok
        { armor with
          confidence := c
          number := self.class_names_[k]
          classfication_result := ops.formatResult self.class_names_[k] (c * 100) } := by
      unfold classifyArmor
      simp only [hs, hck, List.getElem?_eq_getElem hklt]
    exact ⟨probs, c, k, self.class_names_[k], hs, hck, hklt, List.getElem?_eq_getElem hklt,
      hcl, _, fcClassify_singleton hcl⟩

/-- Instance of C10 on a four-line label text and a two-class network: the lookup inside
`classifyArmor` finds the label at index 0. -/
theorem labels_per_line_and_lookup_in_bounds_witness :
    readLabels ['1', '\n', '2', 'a', '\n', '\n', '3'] = ['1', '2', Char.ofNat 0, '3'] ∧
    (∃ probs confidence label_id number,
      softmax Real.exp [(0 : ℝ), 0] = some probs ∧
      minMaxLoc probs = some (confidence, label_id) ∧
      label_id < 5 ∧
      ['1', '2', '3', '4', '5'][label_id]? = some number) ∧
    classifyArmor (demoOps ℝ Real.exp (fun _ => [0, 0])) (demoClassifier ℝ (1 / 2))
        (demoArmor ℝ ArmorType.SMALL 0) =
      .ok { demoArmor ℝ ArmorType.SMALL 0 with
            confidence := 1 / 2
            number := '1'
            classfication_result := String.singleton '1' } := by
  have h := labels_per_line_and_lookup_in_bounds (demoOps ℝ Real.exp (fun _ => [0, 0]))
    (demoClassifier ℝ (1 / 2)) (demoArmor ℝ ArmorType.SMALL 0)
    (fun _ => some ()) (fun _ => none) (String.singleton 'm') (String.singleton 'l') (1 / 2)
    ['1', '\n', '2', 'a', '\n', '\n', '3'] (by simp [demoOps]) (by simp [demoOps, demoClassifier])
  obtain ⟨h1, -, -, probs, c, k, number, hs, hml, hk, hn, hcl, -⟩ := h
  refine ⟨?_, ⟨probs, c, k, number, hs, hml, hk, hn⟩, ?_⟩
  · rw [h1]
    decide
  · have hp : probs = [1 / 2, 1 / 2] := by
      have hs2 : softmax Real.exp [(0 : ℝ), 0] = some [1 / 2, 1 / 2] := by
        simp [softmax, max_element]
        norm_num
      have hs3 : softmax Real.exp [(0 : ℝ), 0] = some probs := hs
      rw [hs2] at hs3
      exact (Option.some.inj hs3).symm
    subst hp
    simp only [minMaxLoc, maxLocScan, lt_self_iff_false, if_false, Option.some.injEq,
      Prod.mk.injEq] at hml
    obtain ⟨rfl, rfl⟩ := hml
    have hnum : number = '1' := by
      simp [demoClassifier] at hn
      exact hn.symm
    subst hnum
    rw [hcl]
    rfl

end LabelLookup

end rm_auto_aim
